import Mathlib

/-!
# Verification of the ESG standards search engine and telemetry buffer

A shallow embedding, in Lean 4, of the core of `esg_bot.py`:

* the fuzzy match scorer (`fuzz_score`, built on the external
  rapidfuzz partial-ratio metric, which is modelled from the spec),
* the query expander (`expand_query`),
* the recursive document searcher (`search_json`),
* the result aggregator (`search_standard` with `normalize_score`),
* the buffered telemetry logger (`log_query` / `_flush_buffer` of
  `GoogleSheetsLogger`), modelled as a sequential state machine.

Machine strings are modelled as Lean `String`s (lists of characters);
Python's ASCII-range `str.lower` is modelled character-wise.  Corpora
(`STANDARDS`) and the concept table (`CONCEPTS`) are loaded from data
files that are not part of the repository, so the search functions are
parameterised by them; the in-source fallback concept table is
reproduced verbatim as `defaultConcepts`.
-/

/-- Model of Python's `str.lower()` restricted to its ASCII action:
characters are lower-cased one by one (`esg_bot.py` only ever compares
lower-cased text, and the corpora are ASCII). -/
def pyLower (s : String) : String := ⟨s.data.map Char.toLower⟩

theorem char_toNat_ofNat {n : Nat} (h : n.isValidChar) : (Char.ofNat n).toNat = n := by
  simp only [Char.ofNat, dif_pos h]
  simp [Char.ofNatAux, Char.toNat, UInt32.toNat]

theorem char_toLower_toLower (c : Char) : c.toLower.toLower = c.toLower := by
  unfold Char.toLower
  by_cases h : c.toNat ≥ 65 ∧ c.toNat ≤ 90
  · rw [if_pos h]
    have hv : (c.toNat + 32).isValidChar := Or.inl (by omega)
    rw [char_toNat_ofNat hv]
    rw [if_neg (by omega)]
  · rw [if_neg h, if_neg h]

theorem pyLower_pyLower (s : String) : pyLower (pyLower s) = pyLower s := by
  have h : Char.toLower ∘ Char.toLower = Char.toLower := funext char_toLower_toLower
  simp [pyLower, List.map_map, h]

theorem string_eq_of_data {s t : String} (h : s.data = t.data) : s = t := by
  cases s; cases t; exact congrArg String.mk (by simpa using h)

theorem pyLower_ne_empty {s : String} (h : s ≠ "") : pyLower s ≠ "" := by
  intro hc
  apply h
  have hdata : s.data.map Char.toLower = [] := congrArg String.data hc
  have h0 := List.map_eq_nil_iff.mp hdata
  exact string_eq_of_data (h0.trans rfl)

/-- Model of Python's string containment test `needle in hay`, first the
"match at the front" helper. -/
def py_startsWith : List Char → List Char → Bool
  | [], _ => true
  | _ :: _, [] => false
  | a :: as, b :: bs => a == b && py_startsWith as bs

/-- Model of Python's substring test `needle in hay` (true for the empty
needle, as in Python). -/
def py_substr (needle : List Char) : List Char → Bool
  | [] => needle.isEmpty
  | h :: t => py_startsWith needle (h :: t) || py_substr needle t

theorem py_substr_nil_true {needle : List Char} (h : py_substr needle [] = true) :
    needle = [] := by
  cases needle with
  | nil => rfl
  | cons a as => simp [py_substr, List.isEmpty] at h

/-- Model of Python's `str.split()` (no separator argument): maximal runs
of non-whitespace characters, empty tokens never produced.  The second
argument accumulates the current token in reverse. -/
def py_tokens : List Char → List Char → List String
  | [], cur => if cur.isEmpty then [] else [String.mk cur.reverse]
  | c :: rest, cur =>
    if c.isWhitespace then
      (if cur.isEmpty then [] else [String.mk cur.reverse]) ++ py_tokens rest []
    else
      py_tokens rest (c :: cur)

/-! ## The match scorer

`fuzz_score` (esg_bot.py lines 484-488) calls the external library
function `rapidfuzz.fuzz.partial&#95;ratio` on the two lower-cased
arguments.  That library is not part of this repository.

Modelled from the spec: the spec (§4.1) describes the metric as "a
standard partial-ratio fuzzy string similarity algorithm" returning an
integer in [0,100], deterministic, with "no error conditions — any
input, including empty strings, returns a score (0 for degenerate
cases)".  We model it in the standard way: the similarity of the
shorter string against every contiguous window of the longer string of
the shorter string's length, where the per-window similarity is the
indel similarity `200 * lcs(a,b) / (|a| + |b|)`, and degenerate
(empty-string) inputs score 0. -/

/-- Longest-common-subsequence length of two character lists. -/
def lcsLen : List Char → List Char → Nat
  | [], _ => 0
  | _ :: _, [] => 0
  | a :: as, b :: bs =>
    if a = b then lcsLen as bs + 1
    else max (lcsLen (a :: as) bs) (lcsLen as (b :: bs))
termination_by a b => a.length + b.length

/-- Indel similarity of two character lists, scaled to 0-100. -/
def indel_sim (a b : List Char) : Nat :=
  if a.isEmpty && b.isEmpty then 100
  else 200 * lcsLen a b / (a.length + b.length)

/-- All contiguous windows of length `n` of `l` (assuming `n ≤ l.length`). -/
def windows (l : List Char) (n : Nat) : List (List Char) :=
  (List.range (l.length - n + 1)).map (fun i => (l.drop i).take n)

/-- Modelled from the spec: the external partial-ratio metric.  The
shorter string slides over the longer; the result is the best window
similarity; empty input on either side is degenerate and scores 0. -/
def fuzz_metric (a b : String) : Nat :=
  let p := if a.data.length ≤ b.data.length then (a.data, b.data) else (b.data, a.data)
  if p.1.isEmpty then 0
  else ((windows p.2 p.1.length).map (indel_sim p.1)).foldl max 0

/-- `fuzz_score` (esg_bot.py lines 484-488): the metric applied to the
lower-cased arguments.  The `lru_cache` memoisation and the hit counter
are pure-value side channels with no effect on the returned score. -/
def fuzz_score (a b : String) : Nat := fuzz_metric (pyLower a) (pyLower b)

theorem lcsLen_le_left : ∀ a b : List Char, lcsLen a b ≤ a.length := by
  intro a b
  induction a, b using lcsLen.induct with
  | case1 b => simp [lcsLen]
  | case2 a as => simp [lcsLen]
  | case3 as b bs ih =>
    rw [lcsLen, if_pos rfl]
    simpa using ih
  | case4 a as b bs h ih1 ih2 =>
    rw [lcsLen, if_neg h]
    simp only [List.length_cons] at *
    omega

theorem lcsLen_le_right : ∀ a b : List Char, lcsLen a b ≤ b.length := by
  intro a b
  induction a, b using lcsLen.induct with
  | case1 b => simp [lcsLen]
  | case2 a as => simp [lcsLen]
  | case3 as b bs ih =>
    rw [lcsLen, if_pos rfl]
    simpa using ih
  | case4 a as b bs h ih1 ih2 =>
    rw [lcsLen, if_neg h]
    simp only [List.length_cons] at *
    omega

theorem lcsLen_self : ∀ a : List Char, lcsLen a a = a.length := by
  intro a
  induction a with
  | nil => simp [lcsLen]
  | cons x xs ih => rw [lcsLen, if_pos rfl, ih]; simp

theorem indel_sim_le_100 (a b : List Char) : indel_sim a b ≤ 100 := by
  unfold indel_sim
  by_cases h : a.isEmpty && b.isEmpty
  · simp [h]
  · rw [if_neg h]
    have hpos : 0 < a.length + b.length := by
      rcases a with _ | ⟨x, xs⟩
      · rcases b with _ | ⟨y, ys⟩
        · simp [List.isEmpty] at h
        · simp
      · simp

    have hle : 200 * lcsLen a b ≤ 100 * (a.length + b.length) := by
      have h1 := lcsLen_le_left a b
      have h2 := lcsLen_le_right a b
      omega
    calc 200 * lcsLen a b / (a.length + b.length)
        ≤ 100 * (a.length + b.length) / (a.length + b.length) :=
          Nat.div_le_div_right hle
      _ = 100 := Nat.mul_div_cancel 100 hpos

theorem indel_sim_self {a : List Char} (h : a ≠ []) : indel_sim a a = 100 := by
  unfold indel_sim
  rw [if_neg (by simp [List.isEmpty_iff, h])]
  rw [lcsLen_self]
  have hpos : 0 < a.length + a.length := by
    cases a with
    | nil => exact absurd rfl h
    | cons x xs => simp
  have : 200 * a.length = 100 * (a.length + a.length) := by ring
  rw [this, Nat.mul_div_cancel 100 hpos]

theorem foldl_max_le_100 : ∀ (l : List Nat) (init : Nat), init ≤ 100 →
    (∀ v ∈ l, v ≤ 100) → l.foldl max init ≤ 100 := by
  intro l
  induction l with
  | nil => intro init h _; simpa using h
  | cons x xs ih =>
    intro init hinit hall
    simp only [List.foldl_cons]
    exact ih _ (by
      have := hall x (by simp)
      omega) (fun v hv => hall v (by simp [hv]))

theorem fuzz_metric_le_100 (a b : String) : fuzz_metric a b ≤ 100 := by
  unfold fuzz_metric
  by_cases h : (if a.data.length ≤ b.data.length then (a.data, b.data)
      else (b.data, a.data)).1.isEmpty
  · simp only [h, if_true]
    omega
  · rw [if_neg h]
    apply foldl_max_le_100
    · omega
    · intro v hv
      rcases List.mem_map.mp hv with ⟨w, _, rfl⟩
      exact indel_sim_le_100 _ _

theorem fuzz_score_le_100 (a b : String) : fuzz_score a b ≤ 100 := fuzz_metric_le_100 _ _

theorem fuzz_metric_self {a : String} (h : a ≠ "") : fuzz_metric a a = 100 := by
  have hne : a.data ≠ [] := by
    intro hc
    exact h (string_eq_of_data (hc.trans rfl))
  unfold fuzz_metric
  rw [if_pos le_rfl]
  rw [if_neg (by simp [List.isEmpty_iff, hne])]
  have hw : windows a.data a.data.length = [a.data] := by
    unfold windows
    rw [Nat.sub_self]
    have h1 : List.range (0 + 1) = [0] := rfl
    rw [h1]
    simp only [List.map_cons, List.map_nil, List.drop_zero, List.take_length]
  rw [hw]
  simp [indel_sim_self hne]

theorem fuzz_metric_empty_left (b : String) : fuzz_metric "" b = 0 := by
  unfold fuzz_metric
  simp

theorem fuzz_metric_empty_right (a : String) : fuzz_metric a "" = 0 := by
  unfold fuzz_metric
  rcases eq_or_ne a.data [] with hd | hd
  · simp [hd]
  · have hlen : ¬ a.data.length ≤ ("" : String).data.length := by
      cases hx : a.data with
      | nil => exact absurd hx hd
      | cons x xs => simp [hx]
    rw [if_neg hlen]
    simp

/-! ## The document model and recursive searcher

Corpora are parsed JSON: maps of string keys to values (Python dicts
preserve insertion order, modelled as association lists), ordered
sequences, scalar strings, and other scalars (numbers, booleans, null),
which `search_json` neither matches nor descends into. -/

inductive Json where
  | str (s : String) : Json
  | obj (kvs : List (String × Json)) : Json
  | arr (xs : List Json) : Json
  | other : Json

/-- A raw traversal hit of `search_json`: the Python tuple
`(score, path, value, depth)`. -/
structure RawMatch where
  score : Nat
  path : String
  value : Json
  depth : Nat

/-! `search_json` (esg_bot.py lines 512-540).  The dict and list loops
are split into the two helpers below; the depth guard sits at function
entry exactly as in the source. -/
mutual

/-- `search_json` (esg_bot.py lines 512-540). -/
def search_json (j : Json) (query path : String) (depth maxDepth : Nat) : List RawMatch :=
  if depth > maxDepth then []
  else
    match j with
    | .obj kvs => search_json_obj kvs query path depth maxDepth
    | .arr xs => search_json_arr xs 0 query path depth maxDepth
    | .str s =>
      if fuzz_score query s > 75 then [⟨fuzz_score query s + 10, path, .str s, depth⟩] else []
    | .other => []
termination_by sizeOf j

/-- The `for key, value in obj.items()` loop of `search_json`. -/
def search_json_obj (kvs : List (String × Json)) (query path : String) (depth maxDepth : Nat) :
    List RawMatch :=
  match kvs with
  | [] => []
  | (k, v) :: rest =>
    (if fuzz_score query k > 70 then
      [⟨fuzz_score query k + 20, if path = "" then k else path ++ " > " ++ k, v, depth⟩] else [])
      ++ search_json v query (if path = "" then k else path ++ " > " ++ k) (depth + 1) maxDepth
      ++ search_json_obj rest query path depth maxDepth
termination_by sizeOf kvs

/-- The `for i, item in enumerate(obj)` loop of `search_json`; `i` is the
running index used in the positional path suffix. -/
def search_json_arr (xs : List Json) (i : Nat) (query path : String) (depth maxDepth : Nat) :
    List RawMatch :=
  match xs with
  | [] => []
  | x :: rest =>
    search_json x query (path ++ "[" ++ toString i ++ "]") depth maxDepth
      ++ search_json_arr rest (i + 1) query path depth maxDepth
termination_by sizeOf xs

end

/-! ## Query expansion and the result aggregator -/

/-- The in-source fallback concept table (esg_bot.py lines 433-446); the
production table is loaded from `data/concepts.json`, which is not part
of the repository, so search functions take the table as a parameter. -/
def defaultConcepts : List (String × List String) :=
  [("scope 3", ["scope 3", "indirect emissions", "value chain"]),
   ("scope 2", ["scope 2", "purchased electricity"]),
   ("scope 1", ["scope 1", "direct emissions"]),
   ("emissions", ["emissions", "ghg", "carbon", "co2"]),
   ("biodiversity", ["biodiversity", "ecosystem", "habitat"]),
   ("water", ["water", "withdrawal", "consumption"]),
   ("waste", ["waste", "recycling", "disposal"]),
   ("human rights", ["human rights", "labor rights"]),
   ("diversity", ["diversity", "inclusion", "equity"]),
   ("governance", ["governance", "board", "ethics"]),
   ("risk", ["risk", "management", "mitigation"]),
   ("supply chain", ["supply chain", "procurement", "vendor"])]

/-- `expand_query` (esg_bot.py lines 542-561).  The final Python
`list(set(expanded))` keeps one copy of every accumulated variant in an
order that is unspecified but fixed within a process (hash order);
we model it as `List.dedup`, a particular deterministic choice. -/
def expand_query (concepts : List (String × List String)) (query : String) : List String :=
  let q := pyLower query
  let expanded :=
    [q]
    ++ concepts.bind (fun c => if py_substr c.1.data q.data then c.2 else [])
    ++ (if py_substr "standard".data q.data || py_substr "framework".data q.data
          || py_substr "compare".data q.data
        then ["esrs", "gri", "sasb", "iso", "brsr"] else [])
    ++ (py_tokens q.data []).filter (fun word => word.length > 3)
  expanded.dedup

/-- `normalize_score` (esg_bot.py lines 563-565):
`min(100, max(0, int(raw_score * 100 / 130)))`; on naturals Python's
`int(...)` of the non-negative quotient is floor division. -/
def normalize_score (raw_score : Nat) : Nat := min 100 (max 0 (raw_score * 100 / 130))

/-- A post-aggregation result of `search_standard`: the Python tuple
`(norm_score, path, content, depth, standard_name)`. -/
structure Ranked where
  score : Nat
  path : String
  content : Json
  depth : Nat
  std : String

/-- The `all_results` accumulation of `search_standard` (esg_bot.py lines
573-580): only the first two expanded variants are searched, each raw
match is normalized and tagged with the corpus name, in traversal
order. -/
def searchCandidates (corpus : Json) (concepts : List (String × List String))
    (standard_name query : String) : List Ranked :=
  ((expand_query concepts query).take 2).bind fun q =>
    (search_json corpus q "" 0 6).map fun m =>
      ⟨normalize_score m.score, m.path, m.value, m.depth, standard_name⟩

/-- One step of the `best_by_path` dict loop (esg_bot.py lines 585-589):
a new path is inserted at the end; an existing path is overwritten in
place only when the new score is strictly greater. -/
def dedupStep (acc : List Ranked) (r : Ranked) : List Ranked :=
  match acc.find? (fun x => x.path == r.path) with
  | none => acc ++ [r]
  | some x => if r.score > x.score then acc.map (fun y => if y.path == r.path then r else y) else acc

/-- The `best_by_path` dict of `search_standard`, as an insertion-ordered
association sequence keyed by path. -/
def dedupByPath (l : List Ranked) : List Ranked := l.foldl dedupStep []

/-- Sorting and truncation of `search_standard` (esg_bot.py lines
591-598): stable sort, descending by normalized score (Python
`list.sort(key=..., reverse=True)` is stable), then `[:limit]`. -/
def rankResults (l : List Ranked) (limit : Nat) : List Ranked :=
  ((dedupByPath l).mergeSort (fun a b => decide (b.score ≤ a.score))).take limit

/-- `search_standard` (esg_bot.py lines 567-598), parameterised by the
loaded standards mapping and concept table.  The Python default for
`limit` is 3. -/
def search_standard (standards : List (String × Json)) (concepts : List (String × List String))
    (standard_name query : String) (limit : Nat) : List Ranked :=
  match standards.lookup standard_name with
  | none => []
  | some corpus => rankResults (searchCandidates corpus concepts standard_name query) limit

/-! ## The telemetry buffer

`GoogleSheetsLogger` (esg_bot.py lines 222-393), modelled as a
sequential state machine over an abstract row type: the buffer, the
primary-sink handle (`self.sheet`, live or disabled), the history of
batches attempted against the primary sink, the history of batches
written to the CSV fallback, and the flush counter.  The outcome of a
primary write is external (network), so `flush_buffer` takes it as a
boolean parameter. -/

structure SheetsLogger (α : Type) where
  buffer : List α
  sheet : Bool
  primaryAttempts : List (List α)
  csvWrites : List (List α)
  flush_count : Nat

/-- The buffer update of `log_query` (esg_bot.py lines 363-393): if the
buffer length exceeds 50, keep only the newest 25 (`buffer[-25:]`),
then append the new row.  (The flush trigger spawns a thread and does
not itself change the buffer.) -/
def log_query_buffer {α : Type} (buffer : List α) (row : α) : List α :=
  let buffer1 := if buffer.length > 50 then buffer.drop (buffer.length - 25) else buffer
  buffer1 ++ [row]

/-- `log_query` acting on the logger state. -/
def log_query {α : Type} (s : SheetsLogger α) (row : α) : SheetsLogger α :=
  { s with buffer := log_query_buffer s.buffer row }

/-- `_flush_buffer` (esg_bot.py lines 293-322): swap out and clear the
buffer first; then, if the primary sink is live, attempt it — on
success count the flush and stop, on failure disable the primary sink
(`self.sheet = None`) and hand the same batch to the CSV fallback; if
the primary sink is already disabled, write the batch to CSV only
(`self.csv_fallback` is always true). -/
def flush_buffer {α : Type} (primaryOk : Bool) (s : SheetsLogger α) : SheetsLogger α :=
  if s.buffer.isEmpty then s
  else
    let batch := s.buffer
    let s1 := { s with buffer := ([] : List α) }
    if s1.sheet then
      if primaryOk then
        { s1 with primaryAttempts := s1.primaryAttempts ++ [batch],
                  flush_count := s1.flush_count + 1 }
      else
        { s1 with primaryAttempts := s1.primaryAttempts ++ [batch],
                  sheet := false,
                  csvWrites := s1.csvWrites ++ [batch] }
    else { s1 with csvWrites := s1.csvWrites ++ [batch] }

/-- The operations that touch the logger state. -/
inductive LoggerOp (α : Type) where
  | log (row : α) : LoggerOp α
  | flush (primaryOk : Bool) : LoggerOp α

def loggerStep {α : Type} (s : SheetsLogger α) : LoggerOp α → SheetsLogger α
  | .log row => log_query s row
  | .flush ok => flush_buffer ok s

/-- The logger's initial state: empty buffer, primary sink live. -/
def initLogger (α : Type) : SheetsLogger α := ⟨[], true, [], [], 0⟩

def runLogger {α : Type} (ops : List (LoggerOp α)) : SheetsLogger α :=
  ops.foldl loggerStep (initLogger α)

/-- The rows submitted by a sequence of operations. -/
def loggedRows {α : Type} (ops : List (LoggerOp α)) : List α :=
  ops.filterMap fun op => match op with | .log r => some r | .flush _ => none

/-! ## Helper lemmas for the telemetry claims -/

theorem loggedRows_cons {α : Type} (op : LoggerOp α) (rest : List (LoggerOp α)) :
    loggedRows (op :: rest) = loggedRows [op] ++ loggedRows rest := by
  cases op <;> simp [loggedRows]

theorem log_query_buffer_count_le {α : Type} [DecidableEq α] (buffer : List α) (row : α)
    (r : α) :
    (log_query_buffer buffer row).count r ≤ buffer.count r + ([row].count r) := by
  unfold log_query_buffer
  by_cases h : buffer.length > 50
  · rw [if_pos h, List.count_append]
    have hsub : (buffer.drop (buffer.length - 25)).count r ≤ buffer.count r :=
      (List.drop_sublist _ _).count_le r
    omega
  · rw [if_neg h, List.count_append]

theorem loggerStep_count_bound {α : Type} [DecidableEq α] (s : SheetsLogger α)
    (op : LoggerOp α) (r : α) :
    ((loggerStep s op).buffer.count r + ((loggerStep s op).primaryAttempts.flatten).count r
      ≤ s.buffer.count r + (s.primaryAttempts.flatten).count r + (loggedRows [op]).count r)
    ∧ ((loggerStep s op).buffer.count r + ((loggerStep s op).csvWrites.flatten).count r
      ≤ s.buffer.count r + (s.csvWrites.flatten).count r + (loggedRows [op]).count r) := by
  cases op with
  | log row =>
    have h := log_query_buffer_count_le s.buffer row r
    have hrows : loggedRows [LoggerOp.log row] = [row] := by simp [loggedRows]
    constructor
    · simp only [loggerStep, log_query, hrows]
      omega
    · simp only [loggerStep, log_query, hrows]
      omega
  | flush ok =>
    have hrows : loggedRows [LoggerOp.flush (α := α) ok] = ([] : List α) := by simp [loggedRows]
    rw [hrows]
    simp only [loggerStep]
    unfold flush_buffer
    by_cases hemp : s.buffer.isEmpty
    · rw [if_pos hemp]
      simp
    · rw [if_neg hemp]
      by_cases hsheet : s.sheet
      · rw [if_pos hsheet]
        cases ok with
        | true =>
          rw [if_pos rfl]
          refine ⟨?_, ?_⟩
          · simp [List.flatten_append, List.count_append]
            omega
          · simp
        | false =>
          rw [if_neg (by simp)]
          refine ⟨?_, ?_⟩
          · simp [List.flatten_append, List.count_append]
            omega
          · simp [List.flatten_append, List.count_append]
            omega
      · rw [if_neg hsheet]
        refine ⟨?_, ?_⟩
        · simp
        · simp [List.flatten_append, List.count_append]
          omega

theorem logger_count_inv {α : Type} [DecidableEq α] :
    ∀ (ops : List (LoggerOp α)) (s : SheetsLogger α) (r : α),
      ((List.foldl loggerStep s ops).buffer.count r
          + ((List.foldl loggerStep s ops).primaryAttempts.flatten).count r
        ≤ s.buffer.count r + (s.primaryAttempts.flatten).count r + (loggedRows ops).count r)
      ∧ ((List.foldl loggerStep s ops).buffer.count r
          + ((List.foldl loggerStep s ops).csvWrites.flatten).count r
        ≤ s.buffer.count r + (s.csvWrites.flatten).count r + (loggedRows ops).count r) := by
  intro ops
  induction ops with
  | nil => intro s r; simp [loggedRows]
  | cons op rest ih =>
    intro s r
    have hb := loggerStep_count_bound s op r
    have hr := ih (loggerStep s op) r
    have hsplit : (loggedRows (op :: rest)).count r
        = (loggedRows [op]).count r + (loggedRows rest).count r := by
      rw [loggedRows_cons, List.count_append]
    simp only [List.foldl_cons] at *
    omega

theorem loggerStep_sheet_off {α : Type} (s : SheetsLogger α) (op : LoggerOp α)
    (h : s.sheet = false) :
    (loggerStep s op).sheet = false ∧ (loggerStep s op).primaryAttempts = s.primaryAttempts := by
  cases op with
  | log row => exact ⟨h, rfl⟩
  | flush ok =>
    simp only [loggerStep]
    unfold flush_buffer
    by_cases hemp : s.buffer.isEmpty
    · rw [if_pos hemp]; exact ⟨h, rfl⟩
    · rw [if_neg hemp]
      simp [h]

/-! ## Claim theorems: scorer, normalization, telemetry -/

/-- C6: the match scorer `fuzz_score` is deterministic, returns an
integer in [0, 100] for every input (empty strings included, without
an error condition), returns the metric's maximum 100 on `(a, a)` for
non-empty `a`, and returns 0 on degenerate empty-string inputs.
(The underlying partial-ratio metric is external library code and is
modelled from the spec, which fixes exactly this contract.) -/
theorem fuzz_score_contract :
    (∀ a b : String, fuzz_score a b = fuzz_score a b)
    ∧ (∀ a b : String, fuzz_score a b ≤ 100)
    ∧ (∀ a : String, a ≠ "" → fuzz_score a a = 100)
    ∧ (∀ b : String, fuzz_score "" b = 0)
    ∧ (∀ a : String, fuzz_score a "" = 0) := by
  refine ⟨fun a b => rfl, fun a b => fuzz_score_le_100 a b, ?_, ?_, ?_⟩
  · intro a ha
    exact fuzz_metric_self (pyLower_ne_empty ha)
  · intro b
    exact fuzz_metric_empty_left _
  · intro a
    exact fuzz_metric_empty_right _

/-- Witness for C6 at a concrete non-empty string. -/
theorem fuzz_score_contract_witness :
    ("esg" : String) ≠ "" ∧ fuzz_score "esg" "esg" = 100 :=
  ⟨by decide, fuzz_score_contract.2.2.1 "esg" (by decide)⟩

/-- C7: `normalize_score` equals `min(100, max(0, int(r*100/130)))`,
stays in the integer band [0, 100] (the lower bound holds because the
result is a natural number), and maps the raw key-match score 90 to
exactly 69. -/
theorem normalize_score_contract :
    (∀ r : Nat, normalize_score r = min 100 (max 0 (r * 100 / 130)))
    ∧ (∀ r : Nat, normalize_score r ≤ 100)
    ∧ normalize_score 90 = 69 :=
  ⟨fun _ => rfl, fun _ => min_le_left _ _, by decide⟩

set_option maxRecDepth 4000 in
/-- C3 counterexample: 51 appends in immediate succession (no flush)
starting from an empty buffer leave the buffer at length 51 — the
claimed capacity cap of 50 and the claimed post-append bound of 25 are
both violated, because `log_query` evicts only when the pre-append
length already exceeds 50. -/
theorem log_query_cap_counterexample :
    ((List.range 51).foldl log_query_buffer ([] : List Nat)).length = 51
    ∧ ¬ ((List.range 51).foldl log_query_buffer ([] : List Nat)).length ≤ 50
    ∧ ¬ ((List.range 51).foldl log_query_buffer ([] : List Nat)).length ≤ 25 := by
  refine ⟨by decide, by decide, by decide⟩

set_option maxRecDepth 4000 in
/-- C3 amended: the buffer length after an append never exceeds 51;
an append onto a buffer of length at most 50 evicts nothing, while an
append onto a buffer whose length exceeds 50 first drops the oldest
records down to the newest 25 (never the newest) and ends at length
26.  In particular 51 appends in immediate succession starting empty
leave length 51, and a 52nd append leaves length 26. -/
theorem log_query_cap_amended {α : Type} :
    (∀ (buffer : List α) (row : α), buffer.length ≤ 51 →
      (log_query_buffer buffer row).length ≤ 51)
    ∧ (∀ (buffer : List α) (row : α), buffer.length ≤ 50 →
      log_query_buffer buffer row = buffer ++ [row])
    ∧ (∀ (buffer : List α) (row : α), buffer.length > 50 →
      log_query_buffer buffer row = buffer.drop (buffer.length - 25) ++ [row]
      ∧ (log_query_buffer buffer row).length = 26)
    ∧ ((List.range 51).foldl log_query_buffer ([] : List Nat)).length = 51
    ∧ ((List.range 52).foldl log_query_buffer ([] : List Nat)).length = 26 := by
  refine ⟨?_, ?_, ?_, by decide, by decide⟩
  · intro buffer row h
    unfold log_query_buffer
    by_cases hb : buffer.length > 50
    · rw [if_pos hb]
      simp [List.length_append, List.length_drop]
      omega
    · rw [if_neg hb]
      simp [List.length_append]
      omega
  · intro buffer row h
    unfold log_query_buffer
    rw [if_neg (by omega)]
  · intro buffer row h
    unfold log_query_buffer
    rw [if_pos h]
    refine ⟨rfl, ?_⟩
    simp [List.length_append, List.length_drop]
    omega

set_option maxRecDepth 4000 in
/-- Witness for C3's amended theorem at a concrete over-full buffer. -/
theorem log_query_cap_amended_witness :
    (List.replicate 51 (0 : Nat)).length > 50
    ∧ log_query_buffer (List.replicate 51 (0 : Nat)) 7
        = (List.replicate 51 (0 : Nat)).drop ((List.replicate 51 (0 : Nat)).length - 25) ++ [7]
    ∧ (log_query_buffer (List.replicate 51 (0 : Nat)) 7).length = 26 :=
  ⟨by decide, (log_query_cap_amended.2.2.1 _ 7 (by decide)).1,
    (log_query_cap_amended.2.2.1 _ 7 (by decide)).2⟩

/-- C4: a flush clears the buffer at flush-start (before any durable
write); a failed primary write disables the primary sink, hands the
very batch that failed to the CSV sink, and never retries it against
the primary; once disabled, the primary sink stays disabled for the
rest of the run and every later flush writes only to the CSV sink;
and over any operation sequence, a row submitted once is flushed at
most once to the primary sink and at most once to the CSV sink. -/
theorem flush_buffer_contract {α : Type} [DecidableEq α] :
    (∀ (ok : Bool) (s : SheetsLogger α), (flush_buffer ok s).buffer = [])
    ∧ (∀ s : SheetsLogger α, s.sheet = true → s.buffer ≠ [] →
        flush_buffer false s =
          ⟨[], false, s.primaryAttempts ++ [s.buffer], s.csvWrites ++ [s.buffer], s.flush_count⟩)
    ∧ (∀ (ok : Bool) (s : SheetsLogger α), s.sheet = false →
        (flush_buffer ok s).sheet = false
        ∧ (flush_buffer ok s).primaryAttempts = s.primaryAttempts
        ∧ (flush_buffer ok s).csvWrites
            = s.csvWrites ++ (if s.buffer.isEmpty then [] else [s.buffer]))
    ∧ (∀ (ops : List (LoggerOp α)) (s : SheetsLogger α), s.sheet = false →
        (List.foldl loggerStep s ops).sheet = false
        ∧ (List.foldl loggerStep s ops).primaryAttempts = s.primaryAttempts)
    ∧ (∀ (ops : List (LoggerOp α)) (r : α), (loggedRows ops).count r ≤ 1 →
        ((runLogger ops).primaryAttempts.flatten).count r ≤ 1
        ∧ ((runLogger ops).csvWrites.flatten).count r ≤ 1) := by
  refine ⟨?_, ?_, ?_, ?_, ?_⟩
  · intro ok s
    unfold flush_buffer
    by_cases hemp : s.buffer.isEmpty
    · rw [if_pos hemp]
      exact List.isEmpty_iff.mp hemp
    · rw [if_neg hemp]
      by_cases hsheet : s.sheet <;> cases ok <;> simp [hsheet]
  · intro s hsheet hne
    unfold flush_buffer
    rw [if_neg (by simpa [List.isEmpty_iff] using hne)]
    cases s
    simp_all
  · intro ok s hsheet
    unfold flush_buffer
    by_cases hemp : s.buffer.isEmpty
    · rw [if_pos hemp]
      simp [hemp, hsheet]
    · rw [if_neg hemp]
      simp [hsheet, hemp]
  · intro ops
    induction ops with
    | nil => intro s h; exact ⟨h, rfl⟩
    | cons op rest ih =>
      intro s h
      have h1 := loggerStep_sheet_off s op h
      have h2 := ih (loggerStep s op) h1.1
      exact ⟨h2.1, h2.2.trans h1.2⟩
  · intro ops r h
    have hinv := logger_count_inv ops (initLogger α) r
    have h0 : (initLogger α).buffer.count r = 0 := by simp [initLogger]
    have h1 : ((initLogger α).primaryAttempts.flatten).count r = 0 := by simp [initLogger]
    have h2 : ((initLogger α).csvWrites.flatten).count r = 0 := by simp [initLogger]
    rw [h0, h1, h2] at hinv
    unfold runLogger
    omega

/-- Witness for C4: a concrete failing first flush followed by a
successful-primary attempt that nevertheless goes to CSV only. -/
theorem flush_buffer_contract_witness :
    (⟨[1], true, [], [], 0⟩ : SheetsLogger Nat).sheet = true
    ∧ (⟨[1], true, [], [], 0⟩ : SheetsLogger Nat).buffer ≠ []
    ∧ flush_buffer false (⟨[1], true, [], [], 0⟩ : SheetsLogger Nat)
        = ⟨[], false, [] ++ [[1]], [] ++ [[1]], 0⟩
    ∧ (loggedRows [LoggerOp.log (1 : Nat), LoggerOp.flush false, LoggerOp.log 2,
        LoggerOp.flush true]).count 1 ≤ 1
    ∧ ((runLogger [LoggerOp.log (1 : Nat), LoggerOp.flush false, LoggerOp.log 2,
        LoggerOp.flush true]).primaryAttempts.flatten).count 1 ≤ 1
    ∧ ((runLogger [LoggerOp.log (1 : Nat), LoggerOp.flush false, LoggerOp.log 2,
        LoggerOp.flush true]).csvWrites.flatten).count 1 ≤ 1 :=
  ⟨rfl, by decide, flush_buffer_contract.2.1 _ rfl (by decide), by decide,
    (flush_buffer_contract.2.2.2.2 _ 1 (by decide)).1,
    (flush_buffer_contract.2.2.2.2 _ 1 (by decide)).2⟩

/-! ## Helper lemmas for the search claims -/

theorem pyLower_empty : pyLower "" = "" := rfl

theorem fuzz_score_empty_left (b : String) : fuzz_score "" b = 0 :=
  fuzz_metric_empty_left (pyLower b)

theorem bind_if_substr_nil (l : List (String × List String)) (h : ∀ c ∈ l, c.1 ≠ "") :
    (l.bind fun c => if py_substr c.1.data [] then c.2 else []) = [] := by
  induction l with
  | nil => rfl
  | cons c rest ih =>
    have hc1 : c.1.data ≠ [] := fun hc => (h c (by simp)) (string_eq_of_data (hc.trans rfl))
    have hfalse : py_substr c.1.data [] = false := by
      cases hd : c.1.data with
      | nil => exact absurd hd hc1
      | cons a as => simp [py_substr, List.isEmpty]
    simp only [List.cons_bind, hfalse]
    simp only [Bool.false_eq_true, if_false, List.nil_append]
    exact ih (fun c hc => h c (by simp [hc]))

theorem expand_query_empty (concepts : List (String × List String))
    (h : ∀ c ∈ concepts, c.1 ≠ "") : expand_query concepts "" = [""] := by
  unfold expand_query
  have hdata : ("" : String).data = [] := rfl
  simp only [pyLower_empty, hdata]
  rw [bind_if_substr_nil concepts h]
  have ht : (py_substr "standard".data [] || py_substr "framework".data []
      || py_substr "compare".data []) = false := by decide
  rw [ht]
  have htok : py_tokens [] [] = [] := rfl
  rw [htok]
  simp [List.dedup]

theorem search_json_empty_query :
    ∀ (j : Json) (q p : String) (d md : Nat), q = "" → search_json j q p d md = [] := by
  refine search_json.induct
    (fun j q p d md => q = "" → search_json j q p d md = [])
    (fun xs i q p d md => q = "" → search_json_arr xs i q p d md = [])
    (fun kvs q p d md => q = "" → search_json_obj kvs q p d md = [])
    ?_ ?_ ?_ ?_ ?_ ?_ ?_ ?_ ?_ ?_
  · intro j q p d md h _
    rw [search_json.eq_def]
    simp [h]
  · intro q p d md h kvs ih hq
    rw [search_json, if_neg h]
    exact ih hq
  · intro q p d md h xs ih hq
    rw [search_json, if_neg h]
    exact ih hq
  · intro q p d md h s hs hq
    subst hq
    rw [fuzz_score_empty_left] at hs
    omega
  · intro q p d md h s hs hq
    rw [search_json, if_neg h]
    simp [hs]
  · intro q p d md h _
    rw [search_json]
    simp [h]
  · intro i q p d md _
    rw [search_json_arr]
  · intro i q p d md x rest ih1 ih2 hq
    rw [search_json_arr]
    rw [ih1 hq, ih2 hq]
    rfl
  · intro q p d md _
    rw [search_json_obj]
  · intro q p d md k v rest ih1 ih2 hq
    subst hq
    rw [search_json_obj]
    have h1 := ih1 rfl
    rw [dite_eq_ite] at h1
    simp [fuzz_score_empty_left, h1, ih2 rfl]

/-! ## Claim theorems: expansion and degenerate searches -/

/-- C8: for every query `q`, `expand_query` returns a collection that
contains the lower-cased query; contains every synonym of every
concept phrase that is a substring of the lower-cased query; contains
the five corpus names (lower-cased) whenever the lower-cased query
contains one of the trigger words "standard", "framework" or
"compare" (the triggers are lower-case strings, so containment in `q`
implies containment in `q.lower()`); and contains every
whitespace-separated token of the lower-cased query longer than 3
characters. -/
theorem expand_query_contract (concepts : List (String × List String)) (q : String) :
    pyLower q ∈ expand_query concepts q
    ∧ (∀ c ∈ concepts, py_substr c.1.data (pyLower q).data = true →
        ∀ s ∈ c.2, s ∈ expand_query concepts q)
    ∧ ((py_substr "standard".data (pyLower q).data
        || py_substr "framework".data (pyLower q).data
        || py_substr "compare".data (pyLower q).data) = true →
        ∀ n ∈ (["esrs", "gri", "sasb", "iso", "brsr"] : List String),
          n ∈ expand_query concepts q)
    ∧ (∀ t ∈ py_tokens (pyLower q).data [], t.length > 3 → t ∈ expand_query concepts q) := by
  refine ⟨?_, ?_, ?_, ?_⟩
  · unfold expand_query
    rw [List.mem_dedup]
    simp
  · intro c hc hsub s hs
    unfold expand_query
    rw [List.mem_dedup]
    simp only [List.mem_append]
    refine Or.inl (Or.inl (Or.inr ?_))
    exact List.mem_bind.mpr ⟨c, hc, by rw [hsub]; simpa using hs⟩
  · intro htrig n hn
    unfold expand_query
    rw [List.mem_dedup]
    simp only [List.mem_append]
    refine Or.inl (Or.inr ?_)
    rw [htrig]
    simpa using hn
  · intro t ht hlen
    unfold expand_query
    rw [List.mem_dedup]
    simp only [List.mem_append]
    exact Or.inr (List.mem_filter.mpr ⟨ht, by simpa using hlen⟩)

/-- Witness for C8 on the in-source concept table and a concrete query
exercising all four clauses. -/
theorem expand_query_contract_witness :
    ("scope 3", ["scope 3", "indirect emissions", "value chain"]) ∈ defaultConcepts
    ∧ py_substr "scope 3".data (pyLower "Scope 3 Standards").data = true
    ∧ "value chain" ∈ expand_query defaultConcepts "Scope 3 Standards"
    ∧ (py_substr "standard".data (pyLower "Scope 3 Standards").data
        || py_substr "framework".data (pyLower "Scope 3 Standards").data
        || py_substr "compare".data (pyLower "Scope 3 Standards").data) = true
    ∧ "gri" ∈ expand_query defaultConcepts "Scope 3 Standards"
    ∧ "scope" ∈ py_tokens (pyLower "Scope 3 Standards").data []
    ∧ ("scope" : String).length > 3
    ∧ "scope" ∈ expand_query defaultConcepts "Scope 3 Standards"
    ∧ pyLower "Scope 3 Standards" ∈ expand_query defaultConcepts "Scope 3 Standards" :=
  ⟨by decide, by decide,
    (expand_query_contract defaultConcepts "Scope 3 Standards").2.1
      ("scope 3", ["scope 3", "indirect emissions", "value chain"]) (by decide) (by decide)
      "value chain" (by decide),
    by decide,
    (expand_query_contract defaultConcepts "Scope 3 Standards").2.2.1 (by decide) "gri"
      (by decide),
    by decide, by decide,
    (expand_query_contract defaultConcepts "Scope 3 Standards").2.2.2 "scope" (by decide)
      (by decide),
    (expand_query_contract defaultConcepts "Scope 3 Standards").1⟩

/-- C9: `search_standard` returns the empty list, raising nothing, for
a corpus name absent from the standards mapping; and for every corpus
an empty query returns the empty list (for any concept table whose
phrases are non-empty — an empty phrase is a substring of every query,
the table maps canonical topic phrases). -/
theorem search_standard_degenerate :
    (∀ (standards : List (String × Json)) (concepts : List (String × List String))
        (name q : String) (limit : Nat),
      standards.lookup name = none → search_standard standards concepts name q limit = [])
    ∧ (∀ (standards : List (String × Json)) (concepts : List (String × List String))
        (name : String) (limit : Nat), (∀ c ∈ concepts, c.1 ≠ "") →
      search_standard standards concepts name "" limit = []) := by
  constructor
  · intro standards concepts name q limit h
    unfold search_standard
    rw [h]
  · intro standards concepts name limit h
    unfold search_standard
    cases hl : standards.lookup name with
    | none => rfl
    | some corpus =>
      have hcand : searchCandidates corpus concepts name "" = [] := by
        unfold searchCandidates
        rw [expand_query_empty concepts h]
        simp [search_json_empty_query corpus "" "" 0 6 rfl]
      show rankResults (searchCandidates corpus concepts name "") limit = []
      rw [hcand]
      simp [rankResults, dedupByPath]

/-- Witness for C9: a concrete unknown corpus name and an empty query
against the in-source concept table. -/
theorem search_standard_degenerate_witness :
    ([("GRI", Json.str "governance")] : List (String × Json)).lookup "UNKNOWN_CORPUS" = none
    ∧ search_standard [("GRI", Json.str "governance")] defaultConcepts "UNKNOWN_CORPUS" "x" 3 = []
    ∧ (∀ c ∈ defaultConcepts, c.1 ≠ "")
    ∧ search_standard [("GRI", Json.str "governance")] defaultConcepts "GRI" "" 3 = [] :=
  ⟨rfl, search_standard_degenerate.1 _ _ _ _ _ rfl, by decide,
    search_standard_degenerate.2 _ _ _ _ (by decide)⟩

/-! ## The defining recurrences of the searcher (claim C2) -/

theorem search_json_obj_eq (q p : String) (d md : Nat) :
    ∀ kvs : List (String × Json), search_json_obj kvs q p d md =
      kvs.bind fun kv =>
        (if fuzz_score q kv.1 > 70 then
          [⟨fuzz_score q kv.1 + 20, if p = "" then kv.1 else p ++ " > " ++ kv.1, kv.2, d⟩]
         else [])
        ++ search_json kv.2 q (if p = "" then kv.1 else p ++ " > " ++ kv.1) (d + 1) md := by
  intro kvs
  induction kvs with
  | nil =>
    rw [search_json_obj]
    rfl
  | cons kv rest ih =>
    cases kv with
    | mk k v =>
      rw [search_json_obj, ih]
      simp [List.cons_bind, List.append_assoc]

theorem search_json_arr_eq (q p : String) (d md : Nat) :
    ∀ (xs : List Json) (i : Nat), search_json_arr xs i q p d md =
      (xs.enumFrom i).bind fun ix =>
        search_json ix.2 q (p ++ "[" ++ toString ix.1 ++ "]") d md := by
  intro xs
  induction xs with
  | nil =>
    intro i
    rw [search_json_arr]
    rfl
  | cons x rest ih =>
    intro i
    rw [search_json_arr, ih (i + 1)]
    simp [List.enumFrom, List.cons_bind]

/-- C2: the document searcher: (i) a call at depth exceeding max_depth
returns no matches from that branch, whatever the node; within the
bound: (ii) a mapping node emits, per key, a key match with a +20
boost exactly when the key's fuzzy score against the query exceeds 70,
and always recurses into the value at depth+1 regardless of the key
score; (iii) a scalar string emits a match with a +10 boost exactly
when its score exceeds 75; (iv) a sequence node recurses into its
elements preserving the current depth, adding positional path
suffixes.  (`search_standard` calls the searcher with the default
max_depth of 6.) -/
theorem search_json_contract (q p : String) (md : Nat) :
    (∀ (j : Json) (d : Nat), d > md → search_json j q p d md = [])
    ∧ (∀ d : Nat, d ≤ md → ∀ kvs : List (String × Json),
        search_json (.obj kvs) q p d md =
          kvs.bind fun kv =>
            (if fuzz_score q kv.1 > 70 then
              [⟨fuzz_score q kv.1 + 20, if p = "" then kv.1 else p ++ " > " ++ kv.1, kv.2, d⟩]
             else [])
            ++ search_json kv.2 q (if p = "" then kv.1 else p ++ " > " ++ kv.1) (d + 1) md)
    ∧ (∀ d : Nat, d ≤ md → ∀ s : String,
        search_json (.str s) q p d md =
          if fuzz_score q s > 75 then [⟨fuzz_score q s + 10, p, .str s, d⟩] else [])
    ∧ (∀ d : Nat, d ≤ md → ∀ xs : List Json,
        search_json (.arr xs) q p d md =
          xs.enum.bind fun ix =>
            search_json ix.2 q (p ++ "[" ++ toString ix.1 ++ "]") d md) := by
  refine ⟨?_, ?_, ?_, ?_⟩
  · intro j d h
    rw [search_json.eq_def]
    simp [h]
  · intro d hd kvs
    rw [search_json, if_neg (by omega)]
    exact search_json_obj_eq q p d md kvs
  · intro d hd s
    rw [search_json, if_neg (by omega)]
  · intro d hd xs
    rw [search_json, if_neg (by omega)]
    exact search_json_arr_eq q p d md xs 0

/-- Witness for C2 at concrete nodes, query and depths. -/
theorem search_json_contract_witness :
    search_json Json.other "governance" "" 7 6 = []
    ∧ search_json (.obj [("governance", Json.other)]) "governance" "" 0 6 =
        ([("governance", Json.other)].bind fun kv =>
          (if fuzz_score "governance" kv.1 > 70 then
            [⟨fuzz_score "governance" kv.1 + 20,
              if "" = "" then kv.1 else "" ++ " > " ++ kv.1, kv.2, 0⟩]
           else [])
          ++ search_json kv.2 "governance"
              (if "" = "" then kv.1 else "" ++ " > " ++ kv.1) (0 + 1) 6)
    ∧ search_json (.str "governance") "governance" "" 0 6 =
        (if fuzz_score "governance" "governance" > 75 then
          [⟨fuzz_score "governance" "governance" + 10, "", .str "governance", 0⟩] else [])
    ∧ search_json (.arr [Json.other]) "governance" "" 0 6 =
        ([Json.other].enum.bind fun ix =>
          search_json ix.2 "governance" ("" ++ "[" ++ toString ix.1 ++ "]") 0 6) :=
  ⟨(search_json_contract "governance" "" 6).1 Json.other 7 (by decide),
   (search_json_contract "governance" "" 6).2.1 0 (by decide) [("governance", Json.other)],
   (search_json_contract "governance" "" 6).2.2.1 0 (by decide) "governance",
   (search_json_contract "governance" "" 6).2.2.2 0 (by decide) [Json.other]⟩

/-- C5: ranking is deterministic and reproducible: within one process
(one fixed expansion order — Python's set iteration order is fixed for
the duration of a process) two invocations of `search_standard` on the
same inputs return the same ranked list, and the result depends only
on the first two elements of the expanded-variant collection, since
only those are searched. -/
theorem search_standard_deterministic (standards : List (String × Json))
    (concepts : List (String × List String)) (name : String) (limit : Nat) (q1 q2 : String) :
    ((expand_query concepts q1).take 2 = (expand_query concepts q2).take 2 →
      search_standard standards concepts name q1 limit
        = search_standard standards concepts name q2 limit)
    ∧ search_standard standards concepts name q1 limit
        = search_standard standards concepts name q1 limit := by
  refine ⟨?_, rfl⟩
  intro h
  have hc : ∀ corpus : Json, searchCandidates corpus concepts name q1
      = searchCandidates corpus concepts name q2 := by
    intro corpus
    unfold searchCandidates
    rw [h]
  unfold search_standard
  cases standards.lookup name with
  | none => rfl
  | some corpus =>
    show rankResults (searchCandidates corpus concepts name q1) limit
      = rankResults (searchCandidates corpus concepts name q2) limit
    rw [hc corpus]

/-- Witness for C5 at a concrete corpus and query. -/
theorem search_standard_deterministic_witness :
    (expand_query defaultConcepts "governance").take 2
      = (expand_query defaultConcepts "governance").take 2
    ∧ search_standard [("GRI", Json.str "governance")] defaultConcepts "GRI" "governance" 3
      = search_standard [("GRI", Json.str "governance")] defaultConcepts "GRI" "governance" 3 :=
  ⟨rfl,
    (search_standard_deterministic [("GRI", Json.str "governance")] defaultConcepts "GRI" 3
      "governance" "governance").1 rfl⟩

/-- C10: search is case-insensitive in the query: lower-casing the
query first does not change the ranked result list, because
`expand_query` lower-cases the query before producing variants (and
`fuzz_score` lower-cases both of its arguments before comparing, so it
is itself insensitive to lower-casing either argument). -/
theorem search_standard_case_insensitive (standards : List (String × Json))
    (concepts : List (String × List String)) (name q : String) (limit : Nat) :
    search_standard standards concepts name (pyLower q) limit
      = search_standard standards concepts name q limit
    ∧ (∀ a b : String, fuzz_score (pyLower a) b = fuzz_score a b
        ∧ fuzz_score a (pyLower b) = fuzz_score a b) := by
  constructor
  · have he : expand_query concepts (pyLower q) = expand_query concepts q := by
      unfold expand_query
      rw [pyLower_pyLower]
    have hc : ∀ corpus : Json, searchCandidates corpus concepts name (pyLower q)
        = searchCandidates corpus concepts name q := by
      intro corpus
      unfold searchCandidates
      rw [he]
    unfold search_standard
    cases standards.lookup name with
    | none => rfl
    | some corpus =>
      show rankResults (searchCandidates corpus concepts name (pyLower q)) limit
        = rankResults (searchCandidates corpus concepts name q) limit
      rw [hc corpus]
  · intro a b
    constructor
    · show fuzz_metric (pyLower (pyLower a)) (pyLower b) = fuzz_metric (pyLower a) (pyLower b)
      rw [pyLower_pyLower]
    · show fuzz_metric (pyLower a) (pyLower (pyLower b)) = fuzz_metric (pyLower a) (pyLower b)
      rw [pyLower_pyLower]

/-! ## Helper lemmas for the aggregator claim (C1) -/

/-- Index of the first candidate carrying path `p` — the
"first-discovered" position of a path in the candidate stream. -/
def pIdx (l : List Ranked) (p : String) : Nat := l.findIdx (fun c => c.path == p)

theorem pairwise_path_unique {l : List Ranked}
    (h : l.Pairwise (fun a b => a.path ≠ b.path)) :
    ∀ x ∈ l, ∀ y ∈ l, x.path = y.path → x = y := by
  induction l with
  | nil => simp
  | cons a rest ih =>
    intro x hx y hy hxy
    rcases List.mem_cons.mp hx with rfl | hx'
    · rcases List.mem_cons.mp hy with rfl | hy'
      · rfl
      · exact absurd hxy ((List.pairwise_cons.mp h).1 y hy')
    · rcases List.mem_cons.mp hy with rfl | hy'
      · exact absurd hxy.symm ((List.pairwise_cons.mp h).1 x hx')
      · exact ih (List.pairwise_cons.mp h).2 x hx' y hy' hxy

theorem pIdx_append_of_mem (pre suf : List Ranked) {p : String}
    (h : ∃ c ∈ pre, c.path = p) :
    pIdx (pre ++ suf) p < pre.length := by
  unfold pIdx
  have hlt : pre.findIdx (fun c => c.path == p) < pre.length := by
    rw [List.findIdx_lt_length]
    rcases h with ⟨c, hc, hcp⟩
    exact ⟨c, hc, by simp [hcp]⟩
  rw [List.findIdx_append, if_pos hlt]
  exact hlt

theorem pIdx_append_of_not_mem (pre suf : List Ranked) {p : String}
    (h : ∀ c ∈ pre, c.path ≠ p) :
    pIdx (pre ++ suf) p = pre.length + pIdx suf p := by
  unfold pIdx
  have hnlt : ¬ pre.findIdx (fun c => c.path == p) < pre.length := by
    rw [List.findIdx_lt_length]
    rintro ⟨c, hc, hcp⟩
    exact h c hc (by simpa using hcp)
  rw [List.findIdx_append, if_neg hnlt]
  omega

theorem pIdx_cons_self (r : Ranked) (rest : List Ranked) :
    pIdx (r :: rest) r.path = 0 := by
  unfold pIdx
  rw [List.findIdx_cons]
  simp

theorem pair_getElem_sublist {α : Type} :
    ∀ (l : List α) (i j : Nat) (hi : i < l.length) (hj : j < l.length), i < j →
      [l.get ⟨i, hi⟩, l.get ⟨j, hj⟩].Sublist l := by
  intro l
  induction l with
  | nil => intro i j hi _ _; simp at hi
  | cons x t ih =>
    intro i j hi hj hij
    cases i with
    | zero =>
      cases j with
      | zero => omega
      | succ j' =>
        simp only [List.get_eq_getElem, List.getElem_cons_zero, List.getElem_cons_succ]
        refine List.Sublist.cons₂ x ?_
        exact List.singleton_sublist.mpr (List.getElem_mem _)
    | succ i' =>
      cases j with
      | zero => omega
      | succ j' =>
        simp only [List.get_eq_getElem, List.getElem_cons_succ]
        exact List.Sublist.cons x
          (by simpa using ih i' j' (by simpa using hi) (by simpa using hj) (by omega))

theorem sublist_pair_both {α : Type} :
    ∀ (l : List α), l.Nodup → ∀ a b : α, [a, b].Sublist l → [b, a].Sublist l → False := by
  intro l
  induction l with
  | nil => intro _ a b h _; exact absurd h (by simp)
  | cons x t ih =>
    intro hnd a b h1 h2
    have hx : x ∉ t := (List.nodup_cons.mp hnd).1
    have hndt := (List.nodup_cons.mp hnd).2
    cases h1 with
    | cons _ h1' =>
      cases h2 with
      | cons _ h2' => exact ih hndt a b h1' h2'
      | cons₂ _ h2' =>
        exact hx (h1'.subset (by simp))
    | cons₂ _ h1' =>
      cases h2 with
      | cons _ h2' =>
        exact hx (h2'.subset (by simp))
      | cons₂ _ h2' =>
        exact hx (List.singleton_sublist.mp h2')

theorem pair_sublist_total {α : Type} :
    ∀ (l : List α) (a b : α), a ∈ l → b ∈ l → a ≠ b →
      [a, b].Sublist l ∨ [b, a].Sublist l := by
  intro l
  induction l with
  | nil => intro a b ha _ _; simp at ha
  | cons x t ih =>
    intro a b ha hb hne
    rcases List.mem_cons.mp ha with rfl | hat
    · rcases List.mem_cons.mp hb with rfl | hbt
      · exact absurd rfl hne
      · exact Or.inl (List.Sublist.cons₂ _ (List.singleton_sublist.mpr hbt))
    · rcases List.mem_cons.mp hb with rfl | hbt
      · exact Or.inr (List.Sublist.cons₂ _ (List.singleton_sublist.mpr hat))
      · exact (ih a b hat hbt hne).imp
          (fun h => List.Sublist.cons x h) (fun h => List.Sublist.cons x h)

/-- The `best_by_path` loop invariant: over any processed prefix, the
accumulated association sequence has pairwise-distinct paths, is
ordered by first-discovered position of each path in the full
candidate stream, holds the maximal score seen so far per path, covers
every processed path, and contains only processed records. -/
theorem dedup_fold_inv :
    ∀ (l acc pre : List Ranked),
      acc.Pairwise (fun a b => a.path ≠ b.path) →
      acc.Pairwise (fun a b => pIdx (pre ++ l) a.path < pIdx (pre ++ l) b.path) →
      (∀ x ∈ acc, ∀ c ∈ pre, c.path = x.path → c.score ≤ x.score) →
      (∀ c ∈ pre, ∃ x ∈ acc, x.path = c.path) →
      (∀ x ∈ acc, x ∈ pre) →
      ((l.foldl dedupStep acc).Pairwise (fun a b => a.path ≠ b.path)
        ∧ (l.foldl dedupStep acc).Pairwise
            (fun a b => pIdx (pre ++ l) a.path < pIdx (pre ++ l) b.path)
        ∧ (∀ x ∈ l.foldl dedupStep acc, ∀ c ∈ pre ++ l, c.path = x.path → c.score ≤ x.score)
        ∧ (∀ c ∈ pre ++ l, ∃ x ∈ l.foldl dedupStep acc, x.path = c.path)
        ∧ (∀ x ∈ l.foldl dedupStep acc, x ∈ pre ++ l)) := by
  intro l
  induction l with
  | nil =>
    intro acc pre hN hO hB hCov hM
    simp only [List.foldl_nil, List.append_nil]
    exact ⟨hN, by simpa using hO, hB, hCov, hM⟩
  | cons r rest ih =>
    intro acc pre hN hO hB hCov hM
    simp only [List.foldl_cons]
    have hfull : pre ++ r :: rest = (pre ++ [r]) ++ rest := by simp
    cases hf : acc.find? (fun x => x.path == r.path) with
    | none =>
      have hnone : ∀ x ∈ acc, x.path ≠ r.path := by
        intro x hx
        have := List.find?_eq_none.mp hf x hx
        simpa using this
      have hstep : dedupStep acc r = acc ++ [r] := by
        unfold dedupStep
        rw [hf]
      have hrp : ∀ c ∈ pre, c.path ≠ r.path := by
        intro c hc hcp
        rcases hCov c hc with ⟨x, hx, hxp⟩
        exact hnone x hx (hxp.trans hcp)
      have hr_idx : pIdx (pre ++ r :: rest) r.path = pre.length := by
        rw [pIdx_append_of_not_mem pre (r :: rest) hrp, pIdx_cons_self]
        omega
      have hacc_idx : ∀ x ∈ acc, pIdx (pre ++ r :: rest) x.path < pre.length := by
        intro x hx
        exact pIdx_append_of_mem pre (r :: rest) ⟨x, hM x hx, rfl⟩
      have hN' : (acc ++ [r]).Pairwise (fun a b => a.path ≠ b.path) := by
        rw [List.pairwise_append]
        refine ⟨hN, List.pairwise_singleton _ _, ?_⟩
        intro a ha b hb
        rcases List.mem_singleton.mp hb with rfl
        exact hnone a ha
      have hO' : (acc ++ [r]).Pairwise
          (fun a b => pIdx (pre ++ r :: rest) a.path < pIdx (pre ++ r :: rest) b.path) := by
        rw [List.pairwise_append]
        refine ⟨hO, List.pairwise_singleton _ _, ?_⟩
        intro a ha b hb
        rcases List.mem_singleton.mp hb with rfl
        rw [hr_idx]
        exact hacc_idx a ha
      have hB' : ∀ x ∈ acc ++ [r], ∀ c ∈ pre ++ [r], c.path = x.path → c.score ≤ x.score := by
        intro x hx c hc hcp
        rcases List.mem_append.mp hx with hxa | hxr
        · rcases List.mem_append.mp hc with hcpre | hcr
          · exact hB x hxa c hcpre hcp
          · rcases List.mem_singleton.mp hcr with rfl
            exact absurd hcp.symm (hnone x hxa)
        · rcases List.mem_singleton.mp hxr with rfl
          rcases List.mem_append.mp hc with hcpre | hcr
          · exact absurd hcp (hrp c hcpre)
          · rcases List.mem_singleton.mp hcr with rfl
            exact le_refl _
      have hCov' : ∀ c ∈ pre ++ [r], ∃ x ∈ acc ++ [r], x.path = c.path := by
        intro c hc
        rcases List.mem_append.mp hc with hcpre | hcr
        · rcases hCov c hcpre with ⟨x, hx, hxp⟩
          exact ⟨x, List.mem_append_left _ hx, hxp⟩
        · rcases List.mem_singleton.mp hcr with rfl
          exact ⟨c, List.mem_append_right _ (by simp), rfl⟩
      have hM' : ∀ x ∈ acc ++ [r], x ∈ pre ++ [r] := by
        intro x hx
        rcases List.mem_append.mp hx with hxa | hxr
        · exact List.mem_append_left _ (hM x hxa)
        · exact List.mem_append_right _ hxr
      rw [hstep, hfull]
      rw [hfull] at hO'
      exact ih (acc ++ [r]) (pre ++ [r]) hN' hO' hB' hCov' hM'
    | some x0 =>
      have hx0 : x0 ∈ acc := List.mem_of_find?_eq_some hf
      have hx0p : x0.path = r.path := by simpa using List.find?_some hf
      by_cases hgt : r.score > x0.score
      · have hstep : dedupStep acc r
            = acc.map (fun y => if y.path == r.path then r else y) := by
          unfold dedupStep
          rw [hf]
          simp [hgt]
        have hgpath : ∀ y : Ranked,
            (if y.path == r.path then r else y).path = y.path := by
          intro y
          by_cases hy : (y.path == r.path) = true
          · rw [if_pos hy]
            have : y.path = r.path := by simpa using hy
            rw [this]
          · rw [if_neg hy]
        have hNmap : (acc.map (fun y => if y.path == r.path then r else y)).Pairwise
            (fun a b => a.path ≠ b.path) := by
          rw [List.pairwise_map]
          refine hN.imp ?_
          intro a b h
          rw [hgpath, hgpath]
          exact h
        have hOmap : (acc.map (fun y => if y.path == r.path then r else y)).Pairwise
            (fun a b => pIdx (pre ++ r :: rest) a.path < pIdx (pre ++ r :: rest) b.path) := by
          rw [List.pairwise_map]
          refine hO.imp ?_
          intro a b h
          rw [hgpath, hgpath]
          exact h
        have hBmap : ∀ x ∈ acc.map (fun y => if y.path == r.path then r else y),
            ∀ c ∈ pre ++ [r], c.path = x.path → c.score ≤ x.score := by
          intro x hx c hc hcp
          rcases List.mem_map.mp hx with ⟨y, hy, rfl⟩
          by_cases hyr : (y.path == r.path) = true
          · rw [if_pos hyr] at hcp ⊢
            rcases List.mem_append.mp hc with hcpre | hcr
            · have hcs : c.score ≤ x0.score := hB x0 hx0 c hcpre (by rw [hcp, ← hx0p])
              omega
            · rcases List.mem_singleton.mp hcr with rfl
              exact le_refl _
          · rw [if_neg hyr] at hcp ⊢
            rcases List.mem_append.mp hc with hcpre | hcr
            · exact hB y hy c hcpre hcp
            · rcases List.mem_singleton.mp hcr with rfl
              exact absurd hcp.symm (by simpa using hyr)
        have hCovmap : ∀ c ∈ pre ++ [r],
            ∃ x ∈ acc.map (fun y => if y.path == r.path then r else y), x.path = c.path := by
          intro c hc
          rcases List.mem_append.mp hc with hcpre | hcr
          · rcases hCov c hcpre with ⟨x, hx, hxp⟩
            exact ⟨_, List.mem_map_of_mem _ hx, by rw [hgpath]; exact hxp⟩
          · rcases List.mem_singleton.mp hcr with rfl
            exact ⟨_, List.mem_map_of_mem _ hx0, by rw [hgpath]; exact hx0p⟩
        have hMmap : ∀ x ∈ acc.map (fun y => if y.path == r.path then r else y),
            x ∈ pre ++ [r] := by
          intro x hx
          rcases List.mem_map.mp hx with ⟨y, hy, rfl⟩
          by_cases hyr : (y.path == r.path) = true
          · rw [if_pos hyr]
            exact List.mem_append_right _ (by simp)
          · rw [if_neg hyr]
            exact List.mem_append_left _ (hM y hy)
        rw [hstep, hfull]
        rw [hfull] at hOmap
        exact ih _ (pre ++ [r]) hNmap hOmap hBmap hCovmap hMmap
      · have hstep : dedupStep acc r = acc := by
          unfold dedupStep
          rw [hf]
          simp [hgt]
        have hB' : ∀ x ∈ acc, ∀ c ∈ pre ++ [r], c.path = x.path → c.score ≤ x.score := by
          intro x hx c hc hcp
          rcases List.mem_append.mp hc with hcpre | hcr
          · exact hB x hx c hcpre hcp
          · rcases List.mem_singleton.mp hcr with rfl
            have hxx0 : x = x0 :=
              pairwise_path_unique hN x hx x0 hx0 (hcp.symm.trans hx0p.symm)
            rw [hxx0]
            omega
        have hCov' : ∀ c ∈ pre ++ [r], ∃ x ∈ acc, x.path = c.path := by
          intro c hc
          rcases List.mem_append.mp hc with hcpre | hcr
          · exact hCov c hcpre
          · rcases List.mem_singleton.mp hcr with rfl
            exact ⟨x0, hx0, hx0p⟩
        have hM' : ∀ x ∈ acc, x ∈ pre ++ [r] := fun x hx => List.mem_append_left _ (hM x hx)
        rw [hstep, hfull]
        rw [hfull] at hO
        exact ih acc (pre ++ [r]) hN hO hB' hCov' hM'

/-- Specification of the `best_by_path` deduplication pass. -/
theorem dedupByPath_spec (l : List Ranked) :
    (dedupByPath l).Pairwise (fun a b => a.path ≠ b.path)
    ∧ (dedupByPath l).Pairwise (fun a b => pIdx l a.path < pIdx l b.path)
    ∧ (∀ x ∈ dedupByPath l, ∀ c ∈ l, c.path = x.path → c.score ≤ x.score)
    ∧ (∀ c ∈ l, ∃ x ∈ dedupByPath l, x.path = c.path)
    ∧ (∀ x ∈ dedupByPath l, x ∈ l) := by
  have h := dedup_fold_inv l [] [] (List.Pairwise.nil) (List.Pairwise.nil)
    (by simp) (by simp) (by simp)
  simpa [dedupByPath] using h

/-- Specification of sorting and truncation over the deduplicated
candidates. -/
theorem rankResults_spec (cands : List Ranked) (limit : Nat) :
    (rankResults cands limit).length ≤ limit
    ∧ (rankResults cands limit).Pairwise (fun a b => b.score ≤ a.score)
    ∧ (rankResults cands limit).Pairwise (fun a b => a.path ≠ b.path)
    ∧ (∀ r ∈ rankResults cands limit, r ∈ cands
        ∧ ∀ c ∈ cands, c.path = r.path → c.score ≤ r.score)
    ∧ (rankResults cands limit).Pairwise
        (fun a b => a.score = b.score → pIdx cands a.path < pIdx cands b.path) := by
  obtain ⟨hN, hO, hB, hCov, hM⟩ := dedupByPath_spec cands
  have htrans : ∀ a b c : Ranked, decide (b.score ≤ a.score) = true →
      decide (c.score ≤ b.score) = true → decide (c.score ≤ a.score) = true := by
    intro a b c h1 h2
    simp only [decide_eq_true_eq] at *
    omega
  have htot : ∀ a b : Ranked,
      (decide (b.score ≤ a.score) || decide (a.score ≤ b.score)) = true := by
    intro a b
    simp only [Bool.or_eq_true, decide_eq_true_eq]
    omega
  have hperm := List.mergeSort_perm (dedupByPath cands)
    (fun a b => decide (b.score ≤ a.score))
  have hsorted := @List.sorted_mergeSort Ranked (fun a b => decide (b.score ≤ a.score))
    htrans htot (dedupByPath cands)
  have hNs : ((dedupByPath cands).mergeSort
      (fun a b => decide (b.score ≤ a.score))).Pairwise (fun a b => a.path ≠ b.path) :=
    (hperm.pairwise_iff (fun h he => h he.symm)).mpr hN
  unfold rankResults
  refine ⟨?_, ?_, ?_, ?_, ?_⟩
  · rw [List.length_take]
    exact min_le_left _ _
  · refine List.Pairwise.sublist (List.take_sublist _ _) ?_
    exact hsorted.imp (fun h => of_decide_eq_true h)
  · exact List.Pairwise.sublist (List.take_sublist _ _) hNs
  · intro r hr
    have hrs : r ∈ (dedupByPath cands).mergeSort (fun a b => decide (b.score ≤ a.score)) :=
      (List.take_sublist _ _).subset hr
    have hrd : r ∈ dedupByPath cands := hperm.subset hrs
    exact ⟨hM r hrd, fun c hc hcp => hB r hrd c hc hcp⟩
  · refine List.Pairwise.sublist (List.take_sublist _ _) ?_
    rw [List.pairwise_iff_getElem]
    intro i j hi hj hij hsc
    have hpair := pair_getElem_sublist
      ((dedupByPath cands).mergeSort (fun a b => decide (b.score ≤ a.score))) i j hi hj hij
    have hne := List.pairwise_iff_getElem.mp hNs i j hi hj hij
    have hane : ((dedupByPath cands).mergeSort (fun a b => decide (b.score ≤ a.score)))[i]
        ≠ ((dedupByPath cands).mergeSort (fun a b => decide (b.score ≤ a.score)))[j] :=
      fun h => hne (congrArg Ranked.path h)
    have hnd : (dedupByPath cands).Nodup :=
      hN.imp (fun h he => h (congrArg Ranked.path he))
    have hnds : ((dedupByPath cands).mergeSort
        (fun a b => decide (b.score ≤ a.score))).Nodup := hperm.nodup_iff.mpr hnd
    have hmem_i : ((dedupByPath cands).mergeSort
        (fun a b => decide (b.score ≤ a.score)))[i] ∈ dedupByPath cands :=
      hperm.subset (List.getElem_mem _)
    have hmem_j : ((dedupByPath cands).mergeSort
        (fun a b => decide (b.score ≤ a.score)))[j] ∈ dedupByPath cands :=
      hperm.subset (List.getElem_mem _)
    rcases pair_sublist_total _ _ _ hmem_i hmem_j hane with hab | hba
    · have hrel := List.Pairwise.sublist hab hO
      exact (List.pairwise_cons.mp hrel).1 _ (by simp)
    · exfalso
      have hple : ([((dedupByPath cands).mergeSort (fun a b => decide (b.score ≤ a.score)))[j],
          ((dedupByPath cands).mergeSort (fun a b => decide (b.score ≤ a.score)))[i]]).Pairwise
          (fun a b => decide (b.score ≤ a.score) = true) := by
        refine List.pairwise_cons.mpr ⟨?_, List.pairwise_singleton _ _⟩
        intro b hb
        rcases List.mem_singleton.mp hb with rfl
        rw [hsc]
        simp
      have hsub2 := List.sublist_mergeSort htrans htot hple hba
      exact sublist_pair_both _ hnds _ _ hpair hsub2

/-- C1: for every corpus name present in the standards mapping, every
query and every limit, the list returned by `search_standard` (i) has
length at most `limit`; (ii) is sorted non-increasing by normalized
score; (iii) contains no two entries with the same path, each returned
entry being an actual candidate whose score is maximal among all
candidates with its path (deduplication keeps the highest-scoring
entry per path); and (iv) breaks ties among equal scores by
first-discovered traversal/insertion order in the candidate stream
(`pIdx` is the position of the first candidate with a given path). -/
theorem search_standard_ranked (standards : List (String × Json))
    (concepts : List (String × List String)) (name q : String) (limit : Nat) (corpus : Json)
    (h : standards.lookup name = some corpus) :
    (search_standard standards concepts name q limit).length ≤ limit
    ∧ (search_standard standards concepts name q limit).Pairwise
        (fun a b => b.score ≤ a.score)
    ∧ (search_standard standards concepts name q limit).Pairwise
        (fun a b => a.path ≠ b.path)
    ∧ (∀ r ∈ search_standard standards concepts name q limit,
        r ∈ searchCandidates corpus concepts name q
        ∧ ∀ c ∈ searchCandidates corpus concepts name q, c.path = r.path → c.score ≤ r.score)
    ∧ (search_standard standards concepts name q limit).Pairwise
        (fun a b => a.score = b.score →
          pIdx (searchCandidates corpus concepts name q) a.path
            < pIdx (searchCandidates corpus concepts name q) b.path) := by
  have hss : search_standard standards concepts name q limit
      = rankResults (searchCandidates corpus concepts name q) limit := by
    unfold search_standard
    rw [h]
  rw [hss]
  exact rankResults_spec _ _

/-- Witness for C1 at a concrete one-entry standards mapping. -/
theorem search_standard_ranked_witness :
    (search_standard [("GRI", Json.str "governance")] [] "GRI" "board" 3).length ≤ 3
    ∧ (search_standard [("GRI", Json.str "governance")] [] "GRI" "board" 3).Pairwise
        (fun a b => b.score ≤ a.score)
    ∧ (search_standard [("GRI", Json.str "governance")] [] "GRI" "board" 3).Pairwise
        (fun a b => a.path ≠ b.path)
    ∧ (∀ r ∈ search_standard [("GRI", Json.str "governance")] [] "GRI" "board" 3,
        r ∈ searchCandidates (Json.str "governance") [] "GRI" "board"
        ∧ ∀ c ∈ searchCandidates (Json.str "governance") [] "GRI" "board",
            c.path = r.path → c.score ≤ r.score)
    ∧ (search_standard [("GRI", Json.str "governance")] [] "GRI" "board" 3).Pairwise
        (fun a b => a.score = b.score →
          pIdx (searchCandidates (Json.str "governance") [] "GRI" "board") a.path
            < pIdx (searchCandidates (Json.str "governance") [] "GRI" "board") b.path) :=
  search_standard_ranked [("GRI", Json.str "governance")] [] "GRI" "board" 3
    (Json.str "governance") rfl
